import Mathlib

/-!
Verification of the scan-state and sync-coordination core of hajimi777.

The Python sources are embedded shallowly:
  - src/app/hajimi_king.py : query normalizer, skip-decision filter,
    key extraction and placeholder triage, scan loop.
  - src/utils/sync_utils.py : sync dispatcher (merge-based balancer sink,
    grouped-append GPT-load sink, periodic batch flush, enqueue).

Pure functions become Lean functions over List Char / String; the mutable
checkpoint becomes an explicit record threaded through the step functions;
code that can raise an uncaught exception returns Option.  Where a loop in
the source is index-driven over a fixed string, the embedding uses an
explicit fuel argument equal to the string length, so every definition
stays structurally recursive and executable.
-/

/-! ## Basic character and list utilities -/

/-- Whitespace as recognised by Python str.split with no arguments
(space, tab, newline, carriage return, vertical tab, form feed). -/
def isPySpace (c : Char) : Bool :=
  c == ' ' || c == '\t' || c == '\n' || c == '\r' || c == '\x0b' || c == '\x0c'

/-- Substring test: Python's membership test s1 in s2 on character lists. -/
def listIsInfix (needle : List Char) : List Char → Bool
  | [] => needle.isEmpty
  | c :: rest => needle.isPrefixOf (c :: rest) || listIsInfix needle rest

/-- Python str.find: index of the first occurrence of needle in hay,
none standing for the -1 result. -/
def findSub (hay needle : List Char) : Option Nat :=
  match hay with
  | [] => if needle.isEmpty then some 0 else none
  | c :: rest =>
    if needle.isPrefixOf (c :: rest) then some 0
    else (findSub rest needle).map (· + 1)

/-! ## Datetime model

Python datetime values compare field-lexicographically; the fields are
modelled as naturals.  Both parsers validate ranges the way the datetime
constructor does (months 1-12, days bounded by the month length with leap
years, hours below 24, minutes and seconds below 60, years 1-9999). -/

structure PyDateTime where
  year : Nat
  month : Nat
  day : Nat
  hour : Nat
  minute : Nat
  second : Nat
deriving DecidableEq

/-- Strict comparison of datetimes, field-lexicographic as in Python. -/
def dtLt (a b : PyDateTime) : Bool :=
  if a.year ≠ b.year then a.year < b.year
  else if a.month ≠ b.month then a.month < b.month
  else if a.day ≠ b.day then a.day < b.day
  else if a.hour ≠ b.hour then a.hour < b.hour
  else if a.minute ≠ b.minute then a.minute < b.minute
  else a.second < b.second

/-- Non-strict comparison of datetimes. -/
def dtLe (a b : PyDateTime) : Bool :=
  dtLt a b || a == b

/-- Value of a decimal digit character, none on a non-digit. -/
def digitVal (c : Char) : Option Nat :=
  if c.isDigit then some (c.toNat - 48) else none

/-- Two-digit decimal field. -/
def parse2 (c1 c2 : Char) : Option Nat := do
  let a ← digitVal c1
  let b ← digitVal c2
  pure (a * 10 + b)

/-- Four-digit decimal field. -/
def parse4 (c1 c2 c3 c4 : Char) : Option Nat := do
  let a ← parse2 c1 c2
  let b ← parse2 c3 c4
  pure (a * 100 + b)

/-- Gregorian leap-year rule used by Python's datetime. -/
def isLeap (y : Nat) : Bool :=
  y % 4 == 0 && (y % 100 != 0 || y % 400 == 0)

/-- Length of a month, matching the calendar validation in datetime. -/
def daysInMonth (y m : Nat) : Nat :=
  if m == 2 then (if isLeap y then 29 else 28)
  else if m == 4 || m == 6 || m == 9 || m == 11 then 30
  else 31

/-- Construction of a datetime with the range checks the datetime
constructor performs; none models a raised ValueError. -/
def mkValidDateTime (y mo d h mi s : Nat) : Option PyDateTime :=
  if 1 ≤ y && y ≤ 9999 && 1 ≤ mo && mo ≤ 12 && 1 ≤ d && d ≤ daysInMonth y mo
      && h ≤ 23 && mi ≤ 59 && s ≤ 59 then
    some ⟨y, mo, d, h, mi, s⟩
  else none

/-- Embedding of datetime.strptime(s, "%Y-%m-%dT%H:%M:%SZ") on the
canonical 20-character form the GitHub API produces. -/
def strptimeZ (s : String) : Option PyDateTime :=
  match s.toList with
  | [y1, y2, y3, y4, '-', m1, m2, '-', d1, d2, 'T',
     h1, h2, ':', n1, n2, ':', s1, s2, 'Z'] => do
    let y ← parse4 y1 y2 y3 y4
    let mo ← parse2 m1 m2
    let d ← parse2 d1 d2
    let h ← parse2 h1 h2
    let mi ← parse2 n1 n2
    let sec ← parse2 s1 s2
    mkValidDateTime y mo d h mi sec
  | _ => none

/-- Embedding of datetime.fromisoformat on the forms relevant here: the
full 19-character timestamp with an arbitrary single separator character,
or a bare 10-character date (midnight). -/
def fromisoformat (s : String) : Option PyDateTime :=
  match s.toList with
  | [y1, y2, y3, y4, '-', m1, m2, '-', d1, d2] => do
    let y ← parse4 y1 y2 y3 y4
    let mo ← parse2 m1 m2
    let d ← parse2 d1 d2
    mkValidDateTime y mo d 0 0 0
  | [y1, y2, y3, y4, '-', m1, m2, '-', d1, d2, _,
     h1, h2, ':', n1, n2, ':', s1, s2] => do
    let y ← parse4 y1 y2 y3 y4
    let mo ← parse2 m1 m2
    let d ← parse2 d1 d2
    let h ← parse2 h1 h2
    let mi ← parse2 n1 n2
    let sec ← parse2 s1 s2
    mkValidDateTime y mo d h mi sec
  | _ => none

/-! ## Checkpoint data model

Modelled from the spec: the Checkpoint record of utils/file_manager.py is
not among the sources; its fields are taken from the spec data model
(lastScanTime, processedQueries, scannedItemIds, one pending set per sink)
and from how src/app/hajimi_king.py and src/utils/sync_utils.py read and
write them.  Python sets become Finset String. -/

structure Checkpoint where
  last_scan_time : Option String
  processed_queries : Finset String
  scanned_shas : Finset String
  wait_send_balancer : Finset String
  wait_send_gpt_load : Finset String
deriving DecidableEq

/-! ## Skip-decision filter (src/app/hajimi_king.py, should_skip_item) -/

/-- Repository sub-record of a search result item; only the field the
filter reads is kept. -/
structure Repository where
  pushed_at : Option String
deriving DecidableEq

/-- Search result item as consumed by the skip filter. -/
structure Item where
  sha : Option String
  path : String
  repository : Repository
deriving DecidableEq

/-- Membership test item.get("sha") in checkpoint.scanned_shas; a missing
sha is never a member. -/
def shaHit (item : Item) (cp : Checkpoint) : Bool :=
  match item.sha with
  | some s => decide (s ∈ cp.scanned_shas)
  | none => false

/-- Blacklist scan over the lowercased path:
any(token in lowercase_path for token in Config.FILE_PATH_BLACKLIST). -/
def docHit (blacklist : List String) (item : Item) : Bool :=
  blacklist.any fun tok => listIsInfix tok.toList item.path.toLower.toList

/-- Embedding of should_skip_item.  The first block swallows every parse
failure (bare except), so it contributes a Bool; the age-filter block
re-parses pushed_at outside any try, so a parse failure there is an
uncaught exception, modelled as none.  ageCutoff stands for the ambient
value datetime.utcnow() - timedelta(days=Config.DATE_RANGE_DAYS). -/
def should_skip_item (blacklist : List String) (ageCutoff : PyDateTime)
    (item : Item) (cp : Checkpoint) : Option (Bool × String) :=
  let timeHit : Bool :=
    match cp.last_scan_time with
    | none => false
    | some ls =>
      match fromisoformat ls with
      | none => false
      | some lastDt =>
        match item.repository.pushed_at with
        | none => false
        | some pa =>
          match strptimeZ pa with
          | none => false
          | some pd => dtLe pd lastDt
  if timeHit then some (true, "time_filter")
  else if shaHit item cp then some (true, "sha_duplicate")
  else
    match item.repository.pushed_at with
    | some pa =>
      match strptimeZ pa with
      | none => none
      | some pd =>
        if dtLt pd ageCutoff then some (true, "age_filter")
        else if docHit blacklist item then some (true, "doc_filter")
        else some (false, "")
    | none =>
      if docHit blacklist item then some (true, "doc_filter")
      else some (false, "")

/-! ## Sync dispatcher (src/utils/sync_utils.py) -/

/-- Enabled flag of the merge-based balancer sink, as computed in
SyncUtils.__init__: bool(url and auth and sync_enabled) with url already
defaulted to the empty string when unset. -/
def balancer_enabled (url auth : String) (syncEnabled : Bool) : Bool :=
  url != "" && auth != "" && syncEnabled

/-- Enabled flag of the grouped-append GPT-load sink, as computed in
SyncUtils.__init__: url, auth, a non-empty parsed group-name list, and the
sync flag must all be present. -/
def gpt_load_enabled (url auth : String) (groupNames : List String)
    (syncEnabled : Bool) : Bool :=
  url != "" && auth != "" && !groupNames.isEmpty && syncEnabled

/-- Embedding of SyncUtils.add_keys_to_queue.  The returned Bool records
whether file_manager.save_checkpoint was reached (it is skipped only on
the early return for an empty key list).  Python set.update is Finset
union. -/
def add_keys_to_queue (balancerOn gptOn : Bool) (cp : Checkpoint)
    (keys : List String) : Checkpoint × Bool :=
  if keys.isEmpty then (cp, false)
  else
    let cp1 :=
      if balancerOn then
        { cp with wait_send_balancer := cp.wait_send_balancer ∪ keys.toFinset }
      else cp
    let cp2 :=
      if gptOn then
        { cp1 with wait_send_gpt_load := cp1.wait_send_gpt_load ∪ keys.toFinset }
      else cp1
    (cp2, true)

/-- Outcome of one run of SyncUtils._send_balancer_worker: the returned
verdict string, how many PUT requests were issued, and the per-key
send-result record passed to file_manager.save_keys_send_result (none for
keys that receive no recorded outcome in that run). -/
structure BalancerOutcome where
  verdict : String
  putCalls : Nat
  sendResult : String → Option String

/-- Embedding of SyncUtils._send_balancer_worker.  The transport is
abstracted into the observed responses: getStatus and currentApiKeys for
the GET of /api/config, putStatus and echoApiKeys for the PUT echo.  The
loop over keys that grows existing_keys_set while collecting
new_add_keys_set yields, at set level, exactly the difference between the
key batch and the fetched list. -/
def send_balancer_worker (getStatus : Nat) (currentApiKeys : List String)
    (putStatus : Nat) (echoApiKeys : List String)
    (keys : List String) : BalancerOutcome :=
  if getStatus ≠ 200 then ⟨"get_config_failed_not_200", 0, fun _ => none⟩
  else
    let existingSet := currentApiKeys.toFinset
    let newAdd := keys.toFinset \ existingSet
    if newAdd = ∅ then ⟨"ok", 0, fun _ => none⟩
    else if putStatus ≠ 200 then
      ⟨"update_config_failed_not_200", 1, fun _ => none⟩
    else
      let updatedSet := echoApiKeys.toFinset
      let failedToAdd := newAdd \ updatedSet
      if failedToAdd ≠ ∅ then
        ⟨"update_failed", 1, fun k =>
          if k ∈ newAdd then
            some (if k ∈ failedToAdd then "update_failed" else "ok")
          else none⟩
      else
        ⟨"ok", 1, fun k => if k ∈ newAdd then some "ok" else none⟩

/-- Failure test for one group in SyncUtils._send_gpt_load_worker: the
group is counted failed when its id cannot be resolved or when the
add-async call does not come back with HTTP 200 and code 0.  resolve
stands for _get_gpt_load_group_id, appendOk for the add response test. -/
def gptGroupFails (resolve : String → Option Nat) (appendOk : Nat → Bool)
    (g : String) : Bool :=
  match resolve g with
  | none => true
  | some gid => !appendOk gid

/-- Failed-group list accumulated by the loop in _send_gpt_load_worker;
an unresolvable or rejected group is recorded and the loop continues with
the remaining groups. -/
def gptFailedGroups (resolve : String → Option Nat) (appendOk : Nat → Bool) :
    List String → List String
  | [] => []
  | g :: rest =>
    match resolve g with
    | none => g :: gptFailedGroups resolve appendOk rest
    | some gid =>
      if appendOk gid then gptFailedGroups resolve appendOk rest
      else g :: gptFailedGroups resolve appendOk rest

/-- Outcome of one run of SyncUtils._send_gpt_load_worker. -/
structure GptLoadOutcome where
  verdict : String
  sendResult : String → Option String

/-- Embedding of SyncUtils._send_gpt_load_worker: every group is
attempted, then a single send-result record covering every key in the
batch is written, ok on full success and a partial-failure marker naming
the failed-group count otherwise. -/
def send_gpt_load_worker (resolve : String → Option Nat)
    (appendOk : Nat → Bool) (groupNames keys : List String) : GptLoadOutcome :=
  let failed := gptFailedGroups resolve appendOk groupNames
  if failed.isEmpty then
    ⟨"ok", fun k => if k ∈ keys then some "ok" else none⟩
  else
    ⟨"partial_failure", fun k =>
      if k ∈ keys then
        some ("partial_failure_" ++ toString failed.length ++ "_groups")
      else none⟩

/-- Embedding of the checkpoint-mutating part of
SyncUtils._batch_send_worker for one sink: a flush is attempted only when
the pending set is non-empty and the sink is enabled, and only the
verdict ok clears the pending set.  verdict stands for the return value
of the sink's worker on the listed pending keys. -/
def batch_send_step (enabled : Bool) (pending : Finset String)
    (verdict : String) : Finset String :=
  if pending ≠ ∅ ∧ enabled = true then
    if verdict = "ok" then ∅ else pending
  else pending

/-- Embedding of SyncUtils._batch_send_worker over both sinks: the
balancer pending set is handled first, then the GPT-load pending set,
each by batch_send_step. -/
def batch_send_worker (balancerOn gptOn : Bool)
    (balancerVerdict gptVerdict : String) (cp : Checkpoint) : Checkpoint :=
  { cp with
    wait_send_balancer :=
      batch_send_step balancerOn cp.wait_send_balancer balancerVerdict
    wait_send_gpt_load :=
      batch_send_step gptOn cp.wait_send_gpt_load gptVerdict }

/-! ## Key extraction and placeholder triage (src/app/hajimi_king.py) -/

/-- Character class [A-Za-z0-9\-_] of the key pattern tail. -/
def keyChar (c : Char) : Bool :=
  c.isUpper || c.isLower || c.isDigit || c == '-' || c == '_'

/-- Literal head AIzaSy of the key pattern. -/
def keyStart : List Char := ['A', 'I', 'z', 'a', 'S', 'y']

/-- Match attempt of the pattern AIzaSy[A-Za-z0-9\-_]{33} anchored at the
front of l; on success, the 39 matched characters and the remainder. -/
def matchKeyAt (l : List Char) : Option (List Char × List Char) :=
  if keyStart.isPrefixOf l then
    let afterStart := l.drop 6
    let body := afterStart.take 33
    if body.length == 33 && body.all keyChar then
      some (keyStart ++ body, afterStart.drop 33)
    else none
  else none

/-- Left-to-right non-overlapping scan of re.findall: try a match at each
position, consume a match whole, otherwise advance one character.  The
fuel argument, instantiated with the content length, keeps the recursion
structural; one unit is spent per step while at least one character is
consumed, so the fuel never runs out on the instantiated call. -/
def extractScan (fuel pos : Nat) (l : List Char) : List (Nat × List Char) :=
  match l, fuel with
  | [], _ => []
  | _ :: _, 0 => []
  | c :: rest, f + 1 =>
    match matchKeyAt (c :: rest) with
    | some (m, after) => (pos, m) :: extractScan f (pos + 39) after
    | none => extractScan f (pos + 1) rest

/-- Matches of the key pattern with their character offsets. -/
def extract_matches (content : List Char) : List (Nat × List Char) :=
  extractScan content.length 0 content

/-- Embedding of extract_keys_from_content: the matched strings alone, in
match order, as re.findall returns them. -/
def extract_keys_from_content (content : List Char) : List (List Char) :=
  (extract_matches content).map (·.2)

/-- Ellipsis placeholder marker. -/
def ellipsisMarker : List Char := ['.', '.', '.']

/-- Placeholder marker YOUR_, compared case-insensitively. -/
def yourMarker : List Char := ['Y', 'O', 'U', 'R', '_']

/-- Placeholder test of process_item: locate the FIRST occurrence of the
candidate string in the content (content.find), take the 45-character
window starting there, and test it for "..." or a case-insensitive
"YOUR_".  A candidate that is somehow absent (find yields -1) is kept
unchecked, exactly as in the source. -/
def placeholderNear (content key : List Char) : Bool :=
  match findSub content key with
  | none => false
  | some i =>
    let snippet := (content.drop i).take 45
    listIsInfix ellipsisMarker snippet ||
      listIsInfix yourMarker (snippet.map Char.toUpper)

/-- Candidate set handed to validation by process_item: extracted keys,
placeholder-filtered, deduplicated (list(set(filtered_keys))). -/
def triage_candidates (content : List Char) : List (List Char) :=
  ((extract_keys_from_content content).filter
    (fun k => !placeholderNear content k)).dedup

/-! ## Query normalizer (src/app/hajimi_king.py, normalize_query) -/

/-- Python " ".join on character-list tokens. -/
def joinSp : List (List Char) → List Char
  | [] => []
  | [t] => t
  | t :: t2 :: rest => t ++ ' ' :: joinSp (t2 :: rest)

/-- Word splitter of Python str.split() with no arguments: split on runs
of whitespace, dropping empty pieces.  Fueled to stay structural; one
fuel unit per step, at least one character consumed per step. -/
def pyWordsF (fuel : Nat) (l : List Char) : List (List Char) :=
  match l, fuel with
  | [], _ => []
  | _ :: _, 0 => []
  | c :: rest, f + 1 =>
    if isPySpace c then pyWordsF f rest
    else (c :: rest.takeWhile (fun x => !isPySpace x)) ::
      pyWordsF f (rest.dropWhile (fun x => !isPySpace x))

/-- Word list of a string, Python str.split(). -/
def pyWords (l : List Char) : List (List Char) := pyWordsF l.length l

/-- Whitespace collapse " ".join(query.split()) opening normalize_query. -/
def collapseWS (l : List Char) : List Char := joinSp (pyWords l)

/-- Split at the first double quote: query.find of the closing quote.
some (pre, post) means the list is pre ++ a quote ++ post with pre
quote-free; none means no quote occurs. -/
def splitAtQuote : List Char → Option (List Char × List Char)
  | [] => none
  | c :: rest =>
    if c = '"' then some ([], rest)
    else (splitAtQuote rest).map (fun p => (c :: p.1, p.2))

/-- Tokenizer loop of normalize_query: at a double quote, scan for the
matching close (an unterminated quote becomes a single-character token);
skip spaces; otherwise take a maximal run of non-space characters.
Fueled with the string length to stay structural. -/
def scanTokensF (fuel : Nat) (l : List Char) : List (List Char) :=
  match l, fuel with
  | [], _ => []
  | _ :: _, 0 => []
  | c :: rest, f + 1 =>
    if c = '"' then
      match splitAtQuote rest with
      | some (pre, post) => ('"' :: pre ++ ['"']) :: scanTokensF f post
      | none => ['"'] :: scanTokensF f rest
    else if c = ' ' then scanTokensF f rest
    else (c :: rest.takeWhile (fun x => x != ' ')) ::
      scanTokensF f (rest.dropWhile (fun x => x != ' '))

/-- Token list of the collapsed query string. -/
def scanTokens (l : List Char) : List (List Char) := scanTokensF l.length l

/-- Classification test part.startswith('"') and part.endswith('"');
on a single double-quote character both tests hold, as in Python. -/
def isQuotedTok (t : List Char) : Bool :=
  t.head? == some '"' && t.getLast? == some '"'

/-- Class marker language: of the second bucket. -/
def langTokStart : List Char := "language:".toList

/-- Class marker filename: of the third bucket. -/
def fileTokStart : List Char := "filename:".toList

/-- Class marker path: of the fourth bucket. -/
def pathTokStart : List Char := "path:".toList

/-- The five token buckets of normalize_query. -/
structure QueryBuckets where
  quoted : List (List Char)
  lang : List (List Char)
  file : List (List Char)
  path : List (List Char)
  other : List (List Char)
deriving DecidableEq

/-- Bucket classification loop of normalize_query: the elif chain gives
the buckets priority order quoted, language, filename, path, other, and
a part surviving to the last branch is kept only when part.strip() is
non-empty, that is when it holds a non-whitespace character. -/
def bucketize : List (List Char) → QueryBuckets
  | [] => ⟨[], [], [], [], []⟩
  | p :: rest =>
    let B := bucketize rest
    if isQuotedTok p then { B with quoted := p :: B.quoted }
    else if langTokStart.isPrefixOf p then { B with lang := p :: B.lang }
    else if fileTokStart.isPrefixOf p then { B with file := p :: B.file }
    else if pathTokStart.isPrefixOf p then { B with path := p :: B.path }
    else if p.any (fun c => !isPySpace c) then { B with other := p :: B.other }
    else B

/-- Lexicographic string comparison by code point, the order Python
sorted uses on str. -/
def lexLe : List Char → List Char → Bool
  | [], _ => true
  | _ :: _, [] => false
  | a :: ta, b :: tb => if a = b then lexLe ta tb else decide (a < b)

/-- Python sorted on a token list.  Insertion sort with lexLe produces
the sorted permutation, which is unique for this total antisymmetric
order, hence equal to the sorted output. -/
def pySorted (l : List (List Char)) : List (List Char) :=
  List.insertionSort (fun a b => lexLe a b = true) l

/-- Bucket assembly of normalize_query: sort each bucket, concatenate in
the fixed order quoted, other, language, filename, path, join with single
spaces. -/
def normalizeTokens (parts : List (List Char)) : List Char :=
  let B := bucketize parts
  joinSp (pySorted B.quoted ++ pySorted B.other ++ pySorted B.lang ++
    pySorted B.file ++ pySorted B.path)

/-- Embedding of normalize_query: collapse whitespace, tokenize, bucket,
sort, reassemble. -/
def normalize_query (q : String) : String :=
  String.mk (normalizeTokens (scanTokens (collapseWS q.toList)))

/-! ## Well-formed tokens for the normalizer round trip -/

/-- Absence of two adjacent spaces. -/
def noDouble : List Char → Bool
  | [] => true
  | [_] => true
  | a :: b :: rest => !(a == ' ' && b == ' ') && noDouble (b :: rest)

/-- Restriction of whitespace inside a token to plain spaces. -/
def onlySpaceWS (t : List Char) : Bool :=
  t.all fun c => !isPySpace c || c == ' '

/-- Quote discipline: a token holding a double quote must begin and end
with one, with no further quote between them; a quote-free token must
also be space-free, so that it scans as a single run. -/
def quoteAtomic (t : List Char) : Bool :=
  if t.contains '"' then
    match t with
    | '"' :: rest =>
      !rest.isEmpty && rest.getLast? == some '"' && !rest.dropLast.contains '"'
    | _ => false
  else !t.contains ' '

/-- Well-formed token: non-empty, whitespace restricted to single
interior spaces, and quote-atomic. -/
def WFtoken (t : List Char) : Bool :=
  !t.isEmpty && onlySpaceWS t && noDouble t &&
    !(t.head? == some ' ') && !(t.getLast? == some ' ') && quoteAtomic t

/-! ## Scan loop pass (src/app/hajimi_king.py, main) -/

/-- One pass of the outer loop over the query list, restricted to its
processed-queries bookkeeping: a query whose normalized form is already
in checkpoint.processed_queries is skipped (continue); otherwise the item
work runs (abstracted away) and checkpoint.add_processed_query records
the normalized form.  Modelled from the spec: add_processed_query of the
absent file_manager module inserts into the processedQueries set.  The
returned list collects the queries actually processed, in order. -/
def scan_pass (queries : List String) (cp : Checkpoint) :
    Checkpoint × List String :=
  match queries with
  | [] => (cp, [])
  | q :: rest =>
    let nq := normalize_query q
    if nq ∈ cp.processed_queries then scan_pass rest cp
    else
      let out := scan_pass rest
        { cp with processed_queries := insert nq cp.processed_queries }
      (out.1, q :: out.2)

/-! ## Concrete demonstration values -/

/-- Key-shaped demonstration string: AIzaSy followed by 33 capital As. -/
def kDemo : String := String.mk (keyStart ++ List.replicate 33 'A')

/-- Content with two occurrences of kDemo; the second is followed by an
ellipsis marker, the first is not. -/
def demoContent : String := kDemo ++ " x " ++ kDemo ++ "..."

/-- Empty checkpoint. -/
def cpEmpty : Checkpoint := ⟨none, ∅, ∅, ∅, ∅⟩

/-- Checkpoint whose processed-queries set already holds "a". -/
def cpSeeded : Checkpoint := ⟨none, {"a"}, ∅, ∅, ∅⟩

/-! ## Theorems -/

/-- Helper: the failed-group list of the GPT-load worker loop is the
filter of the group list by the per-group failure test. -/
theorem gptFailedGroups_eq_filter (resolve : String → Option Nat)
    (appendOk : Nat → Bool) (gs : List String) :
    gptFailedGroups resolve appendOk gs =
      gs.filter (gptGroupFails resolve appendOk) := by
  induction gs with
  | nil => rfl
  | cons g rest ih =>
    simp only [gptFailedGroups, List.filter, gptGroupFails]
    cases hres : resolve g with
    | none => simp [ih]
    | some gid => cases hok : appendOk gid <;> simp [ih, hok]

/-- C1: for every sink, a periodic flush whose worker returns ok clears
that sink's pending-key set, and a flush returning any other verdict
leaves that sink's pending-key set unchanged, so the same keys are
retried on the next cycle. -/
theorem batch_flush_ok_clears_other_verdicts_retain
    (balancerOn gptOn : Bool) (bV gV : String) (cp : Checkpoint) :
    (cp.wait_send_balancer ≠ ∅ → balancerOn = true →
      ((bV = "ok" →
          (batch_send_worker balancerOn gptOn bV gV cp).wait_send_balancer = ∅) ∧
       (bV ≠ "ok" →
          (batch_send_worker balancerOn gptOn bV gV cp).wait_send_balancer =
            cp.wait_send_balancer))) ∧
    (cp.wait_send_gpt_load ≠ ∅ → gptOn = true →
      ((gV = "ok" →
          (batch_send_worker balancerOn gptOn bV gV cp).wait_send_gpt_load = ∅) ∧
       (gV ≠ "ok" →
          (batch_send_worker balancerOn gptOn bV gV cp).wait_send_gpt_load =
            cp.wait_send_gpt_load))) := by
  constructor <;> intro hne hon <;> constructor <;> intro hv <;>
    simp [batch_send_worker, batch_send_step, hne, hon, hv]

/-- Witness for C1: with both sinks enabled and non-empty, an ok verdict
clears the balancer set while an exception verdict keeps the GPT-load
set. -/
theorem batch_flush_ok_clears_other_verdicts_retain_witness :
    (batch_send_worker true true "ok" "exception"
      ⟨none, ∅, ∅, {"k1"}, {"k2"}⟩).wait_send_balancer = ∅ ∧
    (batch_send_worker true true "ok" "exception"
      ⟨none, ∅, ∅, {"k1"}, {"k2"}⟩).wait_send_gpt_load = {"k2"} := by
  refine ⟨((batch_flush_ok_clears_other_verdicts_retain true true "ok" "exception"
      ⟨none, ∅, ∅, {"k1"}, {"k2"}⟩).1 (by decide) rfl).1 rfl,
    ((batch_flush_ok_clears_other_verdicts_retain true true "ok" "exception"
      ⟨none, ∅, ∅, {"k1"}, {"k2"}⟩).2 (by decide) rfl).2 (by decide)⟩

/-- C10: on a non-empty key list, add_keys_to_queue leaves the pending
set of a disabled sink (missing URL, auth, group names, or sync flag)
unchanged, adds the keys as a set union to the pending set of every
enabled sink, and persists the checkpoint. -/
theorem add_keys_to_queue_frame (bUrl bAuth : String) (bSync : Bool)
    (gUrl gAuth : String) (gGroups : List String) (gSync : Bool)
    (cp : Checkpoint) (keys : List String) (h : keys ≠ []) :
    (balancer_enabled bUrl bAuth bSync = false →
      (add_keys_to_queue (balancer_enabled bUrl bAuth bSync)
        (gpt_load_enabled gUrl gAuth gGroups gSync) cp keys).1.wait_send_balancer =
        cp.wait_send_balancer) ∧
    (balancer_enabled bUrl bAuth bSync = true →
      (add_keys_to_queue (balancer_enabled bUrl bAuth bSync)
        (gpt_load_enabled gUrl gAuth gGroups gSync) cp keys).1.wait_send_balancer =
        cp.wait_send_balancer ∪ keys.toFinset) ∧
    (gpt_load_enabled gUrl gAuth gGroups gSync = false →
      (add_keys_to_queue (balancer_enabled bUrl bAuth bSync)
        (gpt_load_enabled gUrl gAuth gGroups gSync) cp keys).1.wait_send_gpt_load =
        cp.wait_send_gpt_load) ∧
    (gpt_load_enabled gUrl gAuth gGroups gSync = true →
      (add_keys_to_queue (balancer_enabled bUrl bAuth bSync)
        (gpt_load_enabled gUrl gAuth gGroups gSync) cp keys).1.wait_send_gpt_load =
        cp.wait_send_gpt_load ∪ keys.toFinset) ∧
    (add_keys_to_queue (balancer_enabled bUrl bAuth bSync)
      (gpt_load_enabled gUrl gAuth gGroups gSync) cp keys).2 = true := by
  have hk : keys.isEmpty = false := by
    cases keys with
    | nil => exact absurd rfl h
    | cons a l => rfl
  cases hb : balancer_enabled bUrl bAuth bSync <;>
    cases hg : gpt_load_enabled gUrl gAuth gGroups gSync <;>
      simp [add_keys_to_queue, hk]

/-- Witness for C10: one disabled sink (missing auth) keeps its pending
set, the enabled sink receives the union, and the checkpoint is saved. -/
theorem add_keys_to_queue_frame_witness :
    (add_keys_to_queue (balancer_enabled "http://b" "" true)
      (gpt_load_enabled "http://g" "tok" ["g1"] true)
      ⟨none, ∅, ∅, {"old"}, {"old"}⟩ ["k1"]).1.wait_send_balancer = {"old"} ∧
    (add_keys_to_queue (balancer_enabled "http://b" "" true)
      (gpt_load_enabled "http://g" "tok" ["g1"] true)
      ⟨none, ∅, ∅, {"old"}, {"old"}⟩ ["k1"]).1.wait_send_gpt_load =
      {"old"} ∪ (["k1"] : List String).toFinset ∧
    (add_keys_to_queue (balancer_enabled "http://b" "" true)
      (gpt_load_enabled "http://g" "tok" ["g1"] true)
      ⟨none, ∅, ∅, {"old"}, {"old"}⟩ ["k1"]).2 = true := by
  have h := add_keys_to_queue_frame "http://b" "" true "http://g" "tok" ["g1"] true
    ⟨none, ∅, ∅, {"old"}, {"old"}⟩ ["k1"] (by decide)
  exact ⟨h.1 (by decide), h.2.2.2.1 (by decide), h.2.2.2.2⟩

/-- C5: when the fetched remote key list already contains every key of
the batch, the merge-based flush performs zero PUT calls and reports the
verdict ok. -/
theorem balancer_flush_all_present_no_write
    (getStatus putStatus : Nat) (current echo keys : List String)
    (hget : getStatus = 200)
    (hsub : keys.toFinset ⊆ current.toFinset) :
    (send_balancer_worker getStatus current putStatus echo keys).verdict = "ok" ∧
    (send_balancer_worker getStatus current putStatus echo keys).putCalls = 0 := by
  have hempty : keys.toFinset \ current.toFinset = ∅ :=
    Finset.sdiff_eq_empty_iff_subset.mpr hsub
  simp [send_balancer_worker, hget, hempty]

/-- Witness for C5: a batch fully contained in the remote list yields ok
with no write. -/
theorem balancer_flush_all_present_no_write_witness :
    (send_balancer_worker 200 ["k1", "k2"] 500 [] ["k2", "k1"]).verdict = "ok" ∧
    (send_balancer_worker 200 ["k1", "k2"] 500 [] ["k2", "k1"]).putCalls = 0 :=
  balancer_flush_all_present_no_write 200 500 ["k1", "k2"] [] ["k2", "k1"]
    rfl (by decide)

/-- C4: when the PUT echo omits some newly-added keys, the flush verdict
is update_failed, and the per-key record marks exactly the omitted
newly-added keys update_failed while every newly-added key present in
the echo is marked ok. -/
theorem balancer_flush_per_key_outcomes
    (putStatus : Nat) (current echo keys : List String)
    (hput : putStatus = 200)
    (hnew : keys.toFinset \ current.toFinset ≠ ∅)
    (hfail : (keys.toFinset \ current.toFinset) \ echo.toFinset ≠ ∅) :
    (send_balancer_worker 200 current putStatus echo keys).verdict =
      "update_failed" ∧
    (∀ k ∈ keys.toFinset \ current.toFinset,
      (k ∉ echo.toFinset →
        (send_balancer_worker 200 current putStatus echo keys).sendResult k =
          some "update_failed") ∧
      (k ∈ echo.toFinset →
        (send_balancer_worker 200 current putStatus echo keys).sendResult k =
          some "ok")) := by
  constructor
  · simp [send_balancer_worker, hput, hnew, hfail]
  · intro k hk
    have hk1 : k ∈ keys := List.mem_toFinset.mp (Finset.mem_sdiff.mp hk).1
    have hk2 : k ∉ current := fun hc =>
      (Finset.mem_sdiff.mp hk).2 (List.mem_toFinset.mpr hc)
    constructor <;> intro hecho
    · have he : k ∉ echo := fun hc => hecho (List.mem_toFinset.mpr hc)
      simp [send_balancer_worker, hput, hnew, hfail, hk1, hk2, he]
    · have he : k ∈ echo := List.mem_toFinset.mp hecho
      simp [send_balancer_worker, hput, hnew, hfail, hk1, hk2, he]

/-- Witness for C4: with k2 and k3 new and only k2 echoed, k3 alone is
marked update_failed and k2 is marked ok. -/
theorem balancer_flush_per_key_outcomes_witness :
    (send_balancer_worker 200 ["k1"] 200 ["k1", "k2"]
      ["k1", "k2", "k3"]).verdict = "update_failed" ∧
    (send_balancer_worker 200 ["k1"] 200 ["k1", "k2"]
      ["k1", "k2", "k3"]).sendResult "k3" = some "update_failed" ∧
    (send_balancer_worker 200 ["k1"] 200 ["k1", "k2"]
      ["k1", "k2", "k3"]).sendResult "k2" = some "ok" := by
  have h := balancer_flush_per_key_outcomes 200 ["k1"] ["k1", "k2"]
    ["k1", "k2", "k3"] rfl (by decide) (by decide)
  exact ⟨h.1, (h.2 "k3" (by decide)).1 (by decide), (h.2 "k2" (by decide)).2 (by decide)⟩

/-- C6: the grouped-append flush attempts every group (the failed-group
list is exactly the groups failing the per-group test, regardless of
position); full success records ok for every key, and any group failure
records one shared partial-failure outcome carrying the failed-group
count on every key of the flush. -/
theorem gpt_load_flush_outcomes (resolve : String → Option Nat)
    (appendOk : Nat → Bool) (groupNames keys : List String) :
    (∀ g, g ∈ gptFailedGroups resolve appendOk groupNames ↔
      g ∈ groupNames ∧ gptGroupFails resolve appendOk g = true) ∧
    (gptFailedGroups resolve appendOk groupNames = [] →
      (send_gpt_load_worker resolve appendOk groupNames keys).verdict = "ok" ∧
      ∀ k ∈ keys,
        (send_gpt_load_worker resolve appendOk groupNames keys).sendResult k =
          some "ok") ∧
    (gptFailedGroups resolve appendOk groupNames ≠ [] →
      (send_gpt_load_worker resolve appendOk groupNames keys).verdict =
        "partial_failure" ∧
      ∀ k ∈ keys,
        (send_gpt_load_worker resolve appendOk groupNames keys).sendResult k =
          some ("partial_failure_" ++
            toString (gptFailedGroups resolve appendOk groupNames).length ++
            "_groups")) := by
  refine ⟨fun g => ?_, fun hempty => ?_, fun hne => ?_⟩
  · rw [gptFailedGroups_eq_filter]
    simp [List.mem_filter]
  · constructor
    · simp [send_gpt_load_worker, hempty]
    · intro k hk
      simp [send_gpt_load_worker, hempty, hk]
  · have hb : (gptFailedGroups resolve appendOk groupNames).isEmpty = false := by
      cases hcase : gptFailedGroups resolve appendOk groupNames with
      | nil => exact absurd hcase hne
      | cons a l => rfl
    constructor
    · simp [send_gpt_load_worker, hb]
    · intro k hk
      simp [send_gpt_load_worker, hb, hk]

/-- Witness for C6: with g1 resolving and accepted and g2, g3 failing,
the key receives the shared two-group partial-failure outcome. -/
theorem gpt_load_flush_outcomes_witness :
    ("g3" ∈ gptFailedGroups (fun g => if g = "g1" then some 1 else none)
      (fun _ => true) ["g1", "g2", "g3"]) ∧
    (send_gpt_load_worker (fun g => if g = "g1" then some 1 else none)
      (fun _ => true) ["g1", "g2", "g3"] ["k"]).verdict = "partial_failure" ∧
    (send_gpt_load_worker (fun g => if g = "g1" then some 1 else none)
      (fun _ => true) ["g1", "g2", "g3"] ["k"]).sendResult "k" =
      some "partial_failure_2_groups" := by
  have h := gpt_load_flush_outcomes (fun g => if g = "g1" then some 1 else none)
    (fun _ => true) ["g1", "g2", "g3"] ["k"]
  have hfail := h.2.2 (by decide)
  exact ⟨(h.1 "g3").mpr (by decide), hfail.1, by
    have := hfail.2 "k" (by decide)
    simpa using this⟩

/-- C9: on an item whose repository record carries no pushed_at value,
the skip decision is exactly the sha_duplicate check followed by the
doc_filter check; the time_filter and age_filter reasons can never be
produced. -/
theorem skip_no_pushed_at (blacklist : List String) (ageCutoff : PyDateTime)
    (item : Item) (cp : Checkpoint)
    (h : item.repository.pushed_at = none) :
    should_skip_item blacklist ageCutoff item cp =
      some (if shaHit item cp then (true, "sha_duplicate")
        else if docHit blacklist item then (true, "doc_filter")
        else (false, "")) := by
  cases hls : cp.last_scan_time with
  | none =>
    cases hsha : shaHit item cp <;> cases hdoc : docHit blacklist item <;>
      simp [should_skip_item, h, hls, hsha, hdoc]
  | some ls =>
    cases hiso : fromisoformat ls with
    | none =>
      cases hsha : shaHit item cp <;> cases hdoc : docHit blacklist item <;>
        simp [should_skip_item, h, hls, hiso, hsha, hdoc]
    | some T =>
      cases hsha : shaHit item cp <;> cases hdoc : docHit blacklist item <;>
        simp [should_skip_item, h, hls, hiso, hsha, hdoc]

/-- Witness for C9: an item without pushed_at whose sha is already
recorded is skipped as sha_duplicate even under a set lastScanTime. -/
theorem skip_no_pushed_at_witness :
    should_skip_item ["readme"] ⟨2024, 1, 1, 0, 0, 0⟩
      ⟨some "s1", "x/README.md", ⟨none⟩⟩
      ⟨some "2024-06-01T00:00:00", ∅, {"s1"}, ∅, ∅⟩ =
      some (true, "sha_duplicate") := by
  have h := skip_no_pushed_at ["readme"] ⟨2024, 1, 1, 0, 0, 0⟩
    ⟨some "s1", "x/README.md", ⟨none⟩⟩
    ⟨some "2024-06-01T00:00:00", ∅, {"s1"}, ∅, ∅⟩ rfl
  rw [h]
  decide

/-- C3: with lastScanTime parsing to T, an item whose pushed_at parses
to a time at or before T is skipped as time_filter regardless of every
later rule; with pushed_at after T, a recorded sha yields sha_duplicate
regardless of every later rule; with both misses, an old pushed_at
yields age_filter regardless of the path; and with all three misses a
blacklisted path yields doc_filter — the strict rule order with the
first match winning. -/
theorem skip_rule_order :
    (∀ (blacklist : List String) (ageCutoff : PyDateTime) (item : Item)
       (cp : Checkpoint) (ls : String) (T : PyDateTime) (pa : String)
       (pd : PyDateTime),
       cp.last_scan_time = some ls → fromisoformat ls = some T →
       item.repository.pushed_at = some pa → strptimeZ pa = some pd →
       dtLe pd T = true →
       should_skip_item blacklist ageCutoff item cp =
         some (true, "time_filter")) ∧
    (∀ (blacklist : List String) (ageCutoff : PyDateTime) (item : Item)
       (cp : Checkpoint) (ls : String) (T : PyDateTime) (pa : String)
       (pd : PyDateTime),
       cp.last_scan_time = some ls → fromisoformat ls = some T →
       item.repository.pushed_at = some pa → strptimeZ pa = some pd →
       dtLe pd T = false → shaHit item cp = true →
       should_skip_item blacklist ageCutoff item cp =
         some (true, "sha_duplicate")) ∧
    (∀ (blacklist : List String) (ageCutoff : PyDateTime) (item : Item)
       (cp : Checkpoint) (pa : String) (pd : PyDateTime),
       (∀ ls T, cp.last_scan_time = some ls → fromisoformat ls = some T →
          dtLe pd T = false) →
       item.repository.pushed_at = some pa → strptimeZ pa = some pd →
       shaHit item cp = false → dtLt pd ageCutoff = true →
       should_skip_item blacklist ageCutoff item cp =
         some (true, "age_filter")) ∧
    (∀ (blacklist : List String) (ageCutoff : PyDateTime) (item : Item)
       (cp : Checkpoint) (pa : String) (pd : PyDateTime),
       (∀ ls T, cp.last_scan_time = some ls → fromisoformat ls = some T →
          dtLe pd T = false) →
       item.repository.pushed_at = some pa → strptimeZ pa = some pd →
       shaHit item cp = false → dtLt pd ageCutoff = false →
       docHit blacklist item = true →
       should_skip_item blacklist ageCutoff item cp =
         some (true, "doc_filter")) := by
  refine ⟨?_, ?_, ?_, ?_⟩
  · intro blacklist ageCutoff item cp ls T pa pd hls hiso hpa hstrp hle
    simp [should_skip_item, hls, hiso, hpa, hstrp, hle]
  · intro blacklist ageCutoff item cp ls T pa pd hls hiso hpa hstrp hle hsha
    simp [should_skip_item, hls, hiso, hpa, hstrp, hle, hsha]
  · intro blacklist ageCutoff item cp pa pd hmiss hpa hstrp hsha hage
    cases hls : cp.last_scan_time with
    | none => simp [should_skip_item, hls, hpa, hstrp, hsha, hage]
    | some ls =>
      cases hiso : fromisoformat ls with
      | none => simp [should_skip_item, hls, hiso, hpa, hstrp, hsha, hage]
      | some T =>
        simp [should_skip_item, hls, hiso, hpa, hstrp, hsha, hage,
          hmiss ls T hls hiso]
  · intro blacklist ageCutoff item cp pa pd hmiss hpa hstrp hsha hage hdoc
    cases hls : cp.last_scan_time with
    | none => simp [should_skip_item, hls, hpa, hstrp, hsha, hage, hdoc]
    | some ls =>
      cases hiso : fromisoformat ls with
      | none => simp [should_skip_item, hls, hiso, hpa, hstrp, hsha, hage, hdoc]
      | some T =>
        simp [should_skip_item, hls, hiso, hpa, hstrp, hsha, hage,
          hmiss ls T hls hiso, hdoc]

/-- Witness for C3: a repository pushed before the last scan time is
skipped as time_filter even though its sha is also recorded, and one
pushed later with a recorded sha is skipped as sha_duplicate. -/
theorem skip_rule_order_witness :
    should_skip_item ["readme"] ⟨2024, 1, 1, 0, 0, 0⟩
      ⟨some "s1", "x/README.md", ⟨some "2024-05-05T00:00:00Z"⟩⟩
      ⟨some "2024-06-01T00:00:00", ∅, {"s1"}, ∅, ∅⟩ =
      some (true, "time_filter") ∧
    should_skip_item ["readme"] ⟨2024, 1, 1, 0, 0, 0⟩
      ⟨some "s1", "x/README.md", ⟨some "2024-07-05T00:00:00Z"⟩⟩
      ⟨some "2024-06-01T00:00:00", ∅, {"s1"}, ∅, ∅⟩ =
      some (true, "sha_duplicate") := by
  constructor
  · exact skip_rule_order.1 ["readme"] ⟨2024, 1, 1, 0, 0, 0⟩
      ⟨some "s1", "x/README.md", ⟨some "2024-05-05T00:00:00Z"⟩⟩
      ⟨some "2024-06-01T00:00:00", ∅, {"s1"}, ∅, ∅⟩
      "2024-06-01T00:00:00" ⟨2024, 6, 1, 0, 0, 0⟩
      "2024-05-05T00:00:00Z" ⟨2024, 5, 5, 0, 0, 0⟩
      rfl (by decide) rfl (by decide) (by decide)
  · exact skip_rule_order.2.1 ["readme"] ⟨2024, 1, 1, 0, 0, 0⟩
      ⟨some "s1", "x/README.md", ⟨some "2024-07-05T00:00:00Z"⟩⟩
      ⟨some "2024-06-01T00:00:00", ∅, {"s1"}, ∅, ∅⟩
      "2024-06-01T00:00:00" ⟨2024, 6, 1, 0, 0, 0⟩
      "2024-07-05T00:00:00Z" ⟨2024, 7, 5, 0, 0, 0⟩
      rfl (by decide) rfl (by decide) (by decide) (by decide)

/-- Counterexample to C7 as stated: in demoContent the key pattern
matches at offset 42 and that match is immediately followed, inside its
45-character window, by the ellipsis marker, yet the matched string is
still handed to validation, because the placeholder check inspects only
the first occurrence of the string (offset 0), which is clean. -/
theorem triage_followed_match_included_counterexample :
    (42, kDemo.toList) ∈ extract_matches demoContent.toList ∧
    listIsInfix ellipsisMarker ((demoContent.toList.drop 42).take 45) = true ∧
    kDemo.toList ∈ triage_candidates demoContent.toList := by decide

/-- C7 amended: the placeholder check runs at the first occurrence of
the candidate string in the content (content.find); a candidate whose
45-character window at that first occurrence contains the ellipsis
marker or a case-insensitive YOUR_ marker is never included in the
candidate set handed to validation. -/
theorem triage_first_occurrence_marker_excluded
    (content key : List Char) (i : Nat)
    (hfind : findSub content key = some i)
    (hmark : listIsInfix ellipsisMarker ((content.drop i).take 45) = true ∨
      listIsInfix yourMarker
        (((content.drop i).take 45).map Char.toUpper) = true) :
    key ∉ triage_candidates content := by
  intro hmem
  have hnear : placeholderNear content key = true := by
    unfold placeholderNear
    rw [hfind]
    simp only [Bool.or_eq_true]
    rcases hmark with hm | hm
    · exact Or.inl hm
    · exact Or.inr hm
  have hkeep := (List.mem_filter.mp (List.mem_dedup.mp hmem)).2
  rw [hnear] at hkeep
  simp at hkeep

/-- Witness for amended C7: a key immediately followed by the ellipsis
marker at its only (hence first) occurrence is excluded. -/
theorem triage_first_occurrence_marker_excluded_witness :
    kDemo.toList ∉ triage_candidates (kDemo ++ "...").toList :=
  triage_first_occurrence_marker_excluded (kDemo ++ "...").toList
    kDemo.toList 0 (by decide) (Or.inl (by decide))

/-- Counterexample to C8 as stated: were processedQueries cleared at the
start of each pass, a pass over the query list would process every query
regardless of the incoming set; instead, a pass over ["a"] starting from
a checkpoint whose processedQueries already holds "a" processes nothing,
and the set is left non-empty rather than cleared. -/
theorem scan_pass_not_cleared_counterexample :
    (scan_pass ["a"] cpEmpty).2 = ["a"] ∧
    (scan_pass ["a"] cpSeeded).2 = [] ∧
    (scan_pass ["a"] cpSeeded).1.processed_queries ≠ ∅ := by decide

/-- C8 amended: the outer loop never clears processedQueries.  A pass
only grows the set, by exactly the normalized forms of the queries it
processes; a query is processed at most once within a pass (normalized
forms of the processed list are distinct), and a query whose normalized
form is already in the incoming set is not processed at all — so a query
is processed at most once per checkpoint lifetime, not once per pass. -/
theorem scan_pass_processed_queries_monotone (queries : List String)
    (cp : Checkpoint) :
    cp.processed_queries ⊆ (scan_pass queries cp).1.processed_queries ∧
    (scan_pass queries cp).1.processed_queries =
      cp.processed_queries ∪
        ((scan_pass queries cp).2.map normalize_query).toFinset ∧
    ((scan_pass queries cp).2.map normalize_query).Nodup ∧
    (∀ q ∈ (scan_pass queries cp).2,
      normalize_query q ∉ cp.processed_queries) := by
  induction queries generalizing cp with
  | nil => simp [scan_pass]
  | cons q rest ih =>
    by_cases hmem : normalize_query q ∈ cp.processed_queries
    · have hstep : scan_pass (q :: rest) cp = scan_pass rest cp := by
        simp [scan_pass, hmem]
      rw [hstep]
      exact ih cp
    · have hstep : scan_pass (q :: rest) cp = ((scan_pass rest { cp with processed_queries := insert (normalize_query q) cp.processed_queries }).1, q :: (scan_pass rest { cp with processed_queries := insert (normalize_query q) cp.processed_queries }).2) := by
        simp [scan_pass, hmem]
      have ih2 := ih { cp with processed_queries := insert (normalize_query q) cp.processed_queries }
      rw [hstep]
      refine ⟨?_, ?_, ?_, ?_⟩
      · exact fun x hx => ih2.1 (Finset.mem_insert_of_mem hx)
      · rw [ih2.2.1]
        simp only [List.map_cons, List.toFinset_cons]
        rw [Finset.union_insert, Finset.insert_union]
      · refine List.nodup_cons.mpr ⟨?_, ih2.2.2.1⟩
        intro hq
        rcases List.mem_map.mp hq with ⟨q2, hq2, hq2eq⟩
        exact (ih2.2.2.2 q2 hq2) (hq2eq ▸ Finset.mem_insert_self _ _)
      · intro q3 hq3
        rcases List.mem_cons.mp hq3 with hq3 | hq3
        · exact hq3 ▸ hmem
        · exact fun hin => (ih2.2.2.2 q3 hq3) (Finset.mem_insert_of_mem hin)

/-- Witness for amended C8: applied to a singleton pass from the empty
checkpoint, the processed query was indeed not in the incoming set. -/
theorem scan_pass_processed_queries_monotone_witness :
    normalize_query "b" ∉ cpEmpty.processed_queries :=
  (scan_pass_processed_queries_monotone ["b"] cpEmpty).2.2.2 "b" (by decide)

/-- Helper: splitAtQuote succeeds exactly by decomposing the list at its
first double quote. -/
theorem splitAtQuote_eq_some {l pre post : List Char}
    (h : splitAtQuote l = some (pre, post)) :
    l = pre ++ '"' :: post ∧ '"' ∉ pre := by
  induction l generalizing pre post with
  | nil => simp [splitAtQuote] at h
  | cons c rest ih =>
    by_cases hc : c = '"'
    · subst hc
      simp [splitAtQuote] at h
      obtain ⟨h1, h2⟩ := h
      subst h1
      subst h2
      simp
    · simp only [splitAtQuote, if_neg hc] at h
      cases hsp : splitAtQuote rest with
      | none => rw [hsp] at h; simp at h
      | some p =>
        obtain ⟨p1, p2⟩ := p
        rw [hsp] at h
        simp at h
        obtain ⟨h1, h2⟩ := h
        subst h2
        obtain ⟨hl, hnot⟩ := ih hsp
        constructor
        · rw [← h1, hl]
          simp
        · rw [← h1]
          simp only [List.mem_cons, not_or]
          exact ⟨fun hq => hc hq.symm, hnot⟩

/-- Helper: a quote-free prefix followed by a quote splits there. -/
theorem splitAtQuote_append (mid rest : List Char) (h : '"' ∉ mid) :
    splitAtQuote (mid ++ '"' :: rest) = some (mid, rest) := by
  induction mid with
  | nil => simp [splitAtQuote]
  | cons c cs ih =>
    have hc : c ≠ '"' := fun hcq => h (hcq ▸ List.mem_cons_self c cs)
    have hcs : '"' ∉ cs := fun hm => h (List.mem_cons_of_mem c hm)
    show splitAtQuote (c :: (cs ++ '"' :: rest)) = some (c :: cs, rest)
    simp only [splitAtQuote, if_neg hc]
    rw [ih hcs]
    rfl

/-- Helper: the word splitter ignores surplus fuel. -/
theorem pyWordsF_irrel (f1 : Nat) : ∀ (f2 : Nat) (l : List Char),
    l.length ≤ f1 → l.length ≤ f2 → pyWordsF f1 l = pyWordsF f2 l := by
  induction f1 with
  | zero =>
    intro f2 l h1 _
    have : l = [] := List.length_eq_zero.mp (Nat.le_zero.mp h1)
    subst this
    cases f2 <;> rfl
  | succ f ih =>
    intro f2 l h1 h2
    cases l with
    | nil => cases f2 <;> rfl
    | cons c rest =>
      cases f2 with
      | zero => exact absurd h2 (by simp)
      | succ g =>
        have hr1 : rest.length ≤ f := Nat.succ_le_succ_iff.mp h1
        have hr2 : rest.length ≤ g := Nat.succ_le_succ_iff.mp h2
        have hdrop : (rest.dropWhile (fun x => !isPySpace x)).length ≤
            rest.length :=
          (List.dropWhile_suffix _).length_le
        simp only [pyWordsF]
        by_cases hc : isPySpace c
        · rw [if_pos hc, if_pos hc]
          exact ih g rest hr1 hr2
        · rw [if_neg hc, if_neg hc]
          rw [ih g _ (le_trans hdrop hr1) (le_trans hdrop hr2)]

/-- Helper: pyWords on a leading whitespace character skips it. -/
theorem pyWords_cons_space {c : Char} (rest : List Char)
    (hc : isPySpace c = true) : pyWords (c :: rest) = pyWords rest := by
  unfold pyWords
  simp only [List.length_cons, pyWordsF, if_pos hc]

/-- Helper: pyWords on a leading non-whitespace character takes a word. -/
theorem pyWords_cons_word {c : Char} (rest : List Char)
    (hc : isPySpace c = false) :
    pyWords (c :: rest) = (c :: rest.takeWhile (fun x => !isPySpace x)) ::
      pyWords (rest.dropWhile (fun x => !isPySpace x)) := by
  unfold pyWords
  simp only [List.length_cons, pyWordsF, hc, Bool.false_eq_true, if_false]
  congr 1
  exact pyWordsF_irrel rest.length _ _
    (List.dropWhile_suffix _).length_le le_rfl

/-- Helper: the tokenizer ignores surplus fuel. -/
theorem scanTokensF_irrel (f1 : Nat) : ∀ (f2 : Nat) (l : List Char),
    l.length ≤ f1 → l.length ≤ f2 → scanTokensF f1 l = scanTokensF f2 l := by
  induction f1 with
  | zero =>
    intro f2 l h1 _
    have : l = [] := List.length_eq_zero.mp (Nat.le_zero.mp h1)
    subst this
    cases f2 <;> rfl
  | succ f ih =>
    intro f2 l h1 h2
    cases l with
    | nil => cases f2 <;> rfl
    | cons c rest =>
      cases f2 with
      | zero => exact absurd h2 (by simp)
      | succ g =>
        have hr1 : rest.length ≤ f := Nat.succ_le_succ_iff.mp h1
        have hr2 : rest.length ≤ g := Nat.succ_le_succ_iff.mp h2
        simp only [scanTokensF]
        by_cases hq : c = '"'
        · rw [if_pos hq, if_pos hq]
          cases hsp : splitAtQuote rest with
          | none =>
            show ['"'] :: scanTokensF f rest = ['"'] :: scanTokensF g rest
            rw [ih g rest hr1 hr2]
          | some p =>
            obtain ⟨pre, post⟩ := p
            have hdec := splitAtQuote_eq_some hsp
            have hlen : post.length ≤ rest.length := by
              rw [hdec.1, List.length_append, List.length_cons]
              omega
            show ('"' :: pre ++ ['"']) :: scanTokensF f post =
              ('"' :: pre ++ ['"']) :: scanTokensF g post
            rw [ih g post (le_trans hlen hr1) (le_trans hlen hr2)]
        · rw [if_neg hq, if_neg hq]
          by_cases hs : c = ' '
          · rw [if_pos hs, if_pos hs]
            exact ih g rest hr1 hr2
          · rw [if_neg hs, if_neg hs]
            have hdrop : (rest.dropWhile (fun x => x != ' ')).length ≤
                rest.length :=
              (List.dropWhile_suffix _).length_le
            rw [ih g _ (le_trans hdrop hr1) (le_trans hdrop hr2)]

/-- Helper: tokenizer step at a quote with a matching close. -/
theorem scanTokens_quote_some {rest pre post : List Char}
    (h : splitAtQuote rest = some (pre, post)) :
    scanTokens ('"' :: rest) = ('"' :: pre ++ ['"']) :: scanTokens post := by
  have hdec := splitAtQuote_eq_some h
  have hlen : post.length ≤ rest.length := by
    rw [hdec.1, List.length_append, List.length_cons]
    omega
  unfold scanTokens
  simp only [List.length_cons, scanTokensF, if_pos rfl, if_true, h]
  congr 1
  exact scanTokensF_irrel rest.length post.length post hlen le_rfl

/-- Helper: tokenizer step at an unterminated quote. -/
theorem scanTokens_quote_none {rest : List Char}
    (h : splitAtQuote rest = none) :
    scanTokens ('"' :: rest) = ['"'] :: scanTokens rest := by
  unfold scanTokens
  simp only [List.length_cons, scanTokensF, if_pos rfl, if_true, h]

/-- Helper: tokenizer step at a space. -/
theorem scanTokens_space (rest : List Char) :
    scanTokens (' ' :: rest) = scanTokens rest := by
  have hq : (' ' : Char) ≠ '"' := by decide
  unfold scanTokens
  simp only [List.length_cons, scanTokensF, if_neg hq, if_pos rfl, if_true]

/-- Helper: tokenizer step at an ordinary character. -/
theorem scanTokens_word {c : Char} (rest : List Char)
    (hq : c ≠ '"') (hs : c ≠ ' ') :
    scanTokens (c :: rest) = (c :: rest.takeWhile (fun x => x != ' ')) ::
      scanTokens (rest.dropWhile (fun x => x != ' ')) := by
  unfold scanTokens
  simp only [List.length_cons, scanTokensF, if_neg hq, if_neg hs]
  congr 1
  exact scanTokensF_irrel rest.length _ _
    (List.dropWhile_suffix _).length_le le_rfl

/-- Helper: the head of a non-empty dropWhile residue fails the
predicate. -/
theorem dropWhile_head_false {p : Char → Bool} :
    ∀ {l : List Char} {e : Char} {l2 : List Char},
    l.dropWhile p = e :: l2 → p e = false := by
  intro l
  induction l with
  | nil => intro e l2 h; simp [List.dropWhile] at h
  | cons a t ih =>
    intro e l2 h
    rw [List.dropWhile_cons] at h
    by_cases hp : p a
    · rw [if_pos hp] at h
      exact ih h
    · rw [if_neg hp] at h
      have ha : a = e := (List.cons.injEq a t e l2 ▸ h).1
      rw [← ha]
      exact Bool.of_not_eq_true hp

/-- Helper: noDouble passes to the tail. -/
theorem noDouble_tail {a : Char} {l : List Char}
    (h : noDouble (a :: l) = true) : noDouble l = true := by
  cases l with
  | nil => rfl
  | cons b r =>
    simp only [noDouble, Bool.and_eq_true] at h
    exact h.2

/-- Helper: noDouble passes to a right factor of an append. -/
theorem noDouble_append_right {x y : List Char}
    (h : noDouble (x ++ y) = true) : noDouble y = true := by
  induction x with
  | nil => exact h
  | cons c cs ih => exact ih (noDouble_tail h)

/-- Helper: collapse is the identity on canonical strings — strings
whose whitespace consists of single interior plain spaces. -/
theorem joinSp_pyWords_canonical : ∀ (n : Nat) (l : List Char),
    l.length ≤ n →
    onlySpaceWS l = true → noDouble l = true →
    l.head? ≠ some ' ' → l.getLast? ≠ some ' ' →
    joinSp (pyWords l) = l := by
  intro n
  induction n with
  | zero =>
    intro l hlen _ _ _ _
    have : l = [] := List.length_eq_zero.mp (Nat.le_zero.mp hlen)
    subst this
    rfl
  | succ n ih =>
    intro l hlen hws hnd hhd htl
    cases l with
    | nil => rfl
    | cons c rest =>
      have hcsp : c ≠ ' ' := by
        intro hc
        exact hhd (by rw [hc]; rfl)
      have hc : isPySpace c = false := by
        cases hspace : isPySpace c with
        | false => rfl
        | true =>
          have hall := List.all_eq_true.mp hws c (List.mem_cons_self c rest)
          rw [hspace] at hall
          simp at hall
          exact absurd hall hcsp
      rw [pyWords_cons_word rest hc]
      have hrest : rest.takeWhile (fun x => !isPySpace x) ++
          rest.dropWhile (fun x => !isPySpace x) = rest :=
        List.takeWhile_append_dropWhile _ _
      cases hdc : rest.dropWhile (fun x => !isPySpace x) with
      | nil =>
        have hwrest : rest.takeWhile (fun x => !isPySpace x) = rest := by
          conv_rhs => rw [← hrest, hdc, List.append_nil]
        rw [hwrest]
        rfl
      | cons e d2 =>
        have he_notp : (fun x => !isPySpace x) e = false := dropWhile_head_false hdc
        have he_sp : isPySpace e = true := by
          simpa using he_notp
        have he_mem : e ∈ c :: rest := by
          have : e ∈ rest.dropWhile (fun x => !isPySpace x) := by
            rw [hdc]; exact List.mem_cons_self e d2
          exact List.mem_cons_of_mem c
            ((List.dropWhile_suffix _).subset this)
        have he : e = ' ' := by
          have hall := List.all_eq_true.mp hws e he_mem
          rw [he_sp] at hall
          simpa using hall
        subst he
        have hl_decomp : c :: rest =
            (c :: rest.takeWhile (fun x => !isPySpace x)) ++ (' ' :: d2) := by
          rw [List.cons_append, ← hdc, hrest]
        cases hd2 : d2 with
        | nil =>
          exfalso
          apply htl
          rw [hl_decomp, List.getLast?_append, hd2]
          rfl
        | cons f d3 =>
          have hnd_d : noDouble (' ' :: f :: d3) = true :=
            noDouble_append_right
              (x := c :: rest.takeWhile (fun x => !isPySpace x))
              (by rw [← hd2, ← hl_decomp]; exact hnd)
          have hf : f ≠ ' ' := by
            intro hfsp
            simp only [noDouble, hfsp, Bool.and_eq_true] at hnd_d
            simp at hnd_d
          have hnd2 : noDouble (f :: d3) = true := noDouble_tail hnd_d
          have hsub : ∀ x ∈ f :: d3, x ∈ c :: rest := by
            intro x hx
            have hxd : x ∈ rest.dropWhile (fun y => !isPySpace y) := by
              rw [hdc, hd2]
              exact List.mem_cons_of_mem _ hx
            exact List.mem_cons_of_mem c
              ((List.dropWhile_suffix _).subset hxd)
          have hws2 : onlySpaceWS (f :: d3) = true :=
            List.all_eq_true.mpr fun x hx =>
              List.all_eq_true.mp hws x (hsub x hx)
          have hhd2 : (f :: d3).head? ≠ some ' ' := by
            intro hcontra
            exact hf (by simpa using hcontra)
          have htl2 : (f :: d3).getLast? ≠ some ' ' := by
            intro hcontra
            apply htl
            rw [hl_decomp, List.getLast?_append, hd2, List.getLast?_cons_cons,
              hcontra]
            rfl
          have hlen2 : (f :: d3).length ≤ n := by
            have h1 : (c :: rest).length =
                (c :: rest.takeWhile (fun x => !isPySpace x)).length +
                  (' ' :: f :: d3).length := by
              rw [hl_decomp, List.length_append, hd2]
            simp only [List.length_cons] at h1 hlen ⊢
            omega
          have ihd := ih (f :: d3) hlen2 hws2 hnd2 hhd2 htl2
          have hfsp : isPySpace f = false := by
            cases hspace : isPySpace f with
            | false => rfl
            | true =>
              have hall := List.all_eq_true.mp hws2 f (List.mem_cons_self f d3)
              rw [hspace] at hall
              simp at hall
              exact absurd hall hf
          rw [pyWords_cons_space (f :: d3) (by decide)]
          rw [pyWords_cons_word d3 hfsp] at ihd ⊢
          show (c :: rest.takeWhile (fun x => !isPySpace x)) ++
            ' ' :: joinSp ((f :: d3.takeWhile (fun x => !isPySpace x)) ::
              pyWords (d3.dropWhile (fun x => !isPySpace x))) = c :: rest
          rw [ihd, ← hd2, ← hl_decomp]

/-- Helper: unpacking of the WFtoken conjunction. -/
theorem WFtoken_parts {t : List Char} (h : WFtoken t = true) :
    t ≠ [] ∧ onlySpaceWS t = true ∧ noDouble t = true ∧
    t.head? ≠ some ' ' ∧ t.getLast? ≠ some ' ' ∧ quoteAtomic t = true := by
  simp only [WFtoken, Bool.and_eq_true, Bool.not_eq_true', List.isEmpty_eq_false,
    beq_eq_false_iff_ne, ne_eq] at h
  exact ⟨h.1.1.1.1.1, h.1.1.1.1.2, h.1.1.1.2, h.1.1.2, h.1.2, h.2⟩

/-- Helper: prefixing a space to a string with a non-space head keeps
noDouble. -/
theorem noDouble_space_cons {J : List Char} (hJ : noDouble J = true)
    (hhd : J.head? ≠ some ' ') : noDouble (' ' :: J) = true := by
  cases J with
  | nil => rfl
  | cons j J2 =>
    have hj : j ≠ ' ' := by
      intro hcontra
      exact hhd (by rw [hcontra]; rfl)
    simp only [noDouble, Bool.and_eq_true]
    refine ⟨?_, hJ⟩
    simp [hj]

/-- Helper: joining two noDouble strings with a single space keeps
noDouble when the seam characters are not spaces. -/
theorem noDouble_append_space {t J : List Char} (ht : noDouble t = true)
    (htl : t.getLast? ≠ some ' ') (hJ : noDouble J = true)
    (hhd : J.head? ≠ some ' ') : noDouble (t ++ ' ' :: J) = true := by
  induction t with
  | nil => exact noDouble_space_cons hJ hhd
  | cons a t2 ih =>
    cases t2 with
    | nil =>
      have ha : a ≠ ' ' := by
        intro hcontra
        exact htl (by rw [hcontra]; rfl)
      show noDouble (a :: ' ' :: J) = true
      simp only [noDouble, Bool.and_eq_true]
      refine ⟨by simp [ha], noDouble_space_cons hJ hhd⟩
    | cons b t3 =>
      have htl2 : (b :: t3).getLast? ≠ some ' ' := by
        rw [← List.getLast?_cons_cons (a := a)]
        exact htl
      have hnd2 : noDouble (b :: t3) = true := noDouble_tail ht
      have hseam := ih hnd2 htl2
      show noDouble (a :: b :: (t3 ++ ' ' :: J)) = true
      simp only [noDouble, Bool.and_eq_true]
      constructor
      · simp only [noDouble, Bool.and_eq_true] at ht
        exact ht.1
      · exact hseam

/-- Helper: a space-joined token list is never empty when the tokens
are non-empty and the list is non-empty. -/
theorem joinSp_ne_nil {ts : List (List Char)} (hne : ts ≠ [])
    (hts : ∀ t ∈ ts, t ≠ []) : joinSp ts ≠ [] := by
  cases ts with
  | nil => exact absurd rfl hne
  | cons t rest =>
    cases rest with
    | nil => exact hts t (List.mem_cons_self t [])
    | cons t2 r =>
      show t ++ ' ' :: joinSp (t2 :: r) ≠ []
      simp

/-- Helper: the space-join of well-formed tokens is a canonical string:
only single interior plain spaces, non-space ends. -/
theorem joinSp_canonical : ∀ (ts : List (List Char)),
    (∀ t ∈ ts, WFtoken t = true) →
    onlySpaceWS (joinSp ts) = true ∧ noDouble (joinSp ts) = true ∧
    (joinSp ts).head? ≠ some ' ' ∧ (joinSp ts).getLast? ≠ some ' ' := by
  intro ts
  induction ts with
  | nil => intro _; refine ⟨rfl, rfl, by simp [joinSp], by simp [joinSp]⟩
  | cons t rest ih =>
    intro hwf
    have hwt := WFtoken_parts (hwf t (List.mem_cons_self t rest))
    cases rest with
    | nil => exact ⟨hwt.2.1, hwt.2.2.1, hwt.2.2.2.1, hwt.2.2.2.2.1⟩
    | cons t2 r =>
      have hwf2 : ∀ u ∈ t2 :: r, WFtoken u = true := fun u hu =>
        hwf u (List.mem_cons_of_mem t hu)
      have ihJ := ih hwf2
      have hJne : joinSp (t2 :: r) ≠ [] :=
        joinSp_ne_nil (by simp) fun u hu => (WFtoken_parts (hwf2 u hu)).1
      show onlySpaceWS (t ++ ' ' :: joinSp (t2 :: r)) = true ∧
        noDouble (t ++ ' ' :: joinSp (t2 :: r)) = true ∧
        (t ++ ' ' :: joinSp (t2 :: r)).head? ≠ some ' ' ∧
        (t ++ ' ' :: joinSp (t2 :: r)).getLast? ≠ some ' '
      refine ⟨?_, ?_, ?_, ?_⟩
      · rw [onlySpaceWS, List.all_append]
        simp only [Bool.and_eq_true]
        refine ⟨hwt.2.1, ?_⟩
        rw [List.all_cons]
        simp only [Bool.and_eq_true]
        exact ⟨by simp [isPySpace], ihJ.1⟩
      · exact noDouble_append_space hwt.2.2.1 hwt.2.2.2.2.1 ihJ.2.1 ihJ.2.2.1
      · obtain ⟨c, t3, rfl⟩ := List.exists_cons_of_ne_nil hwt.1
        simpa using hwt.2.2.2.1
      · rw [List.getLast?_append]
        obtain ⟨j, J2, hJ⟩ := List.exists_cons_of_ne_nil hJne
        rw [hJ, List.getLast?_cons_cons]
        have hlast := ihJ.2.2.2
        rw [hJ] at hlast
        cases hgl : (j :: J2).getLast? with
        | none => simp [List.getLast?] at hgl
        | some v =>
          rw [hgl] at hlast
          show (some v).or _ ≠ some ' '
          simpa using hlast

/-- Helper: shape of a quote-atomic non-empty token — either a properly
quoted literal with a quote-free body, or a quote-free, space-free run. -/
theorem quoteAtomic_shape {t : List Char} (hne : t ≠ [])
    (h : quoteAtomic t = true) :
    (∃ mid, t = '"' :: mid ++ ['"'] ∧ '"' ∉ mid) ∨
    ('"' ∉ t ∧ ' ' ∉ t) := by
  unfold quoteAtomic at h
  by_cases hq : t.contains '"'
  · rw [if_pos hq] at h
    split at h
    · rename_i rest
      simp only [Bool.and_eq_true] at h
      have hrne : rest ≠ [] := by
        intro hcontra
        rw [hcontra] at h
        simp at h
      have hgl : rest.getLast hrne = '"' := by
        have h2 := h.1.2
        rw [List.getLast?_eq_getLast rest hrne] at h2
        simpa using h2
      have h0 := List.dropLast_append_getLast hrne
      rw [hgl] at h0
      left
      refine ⟨rest.dropLast, ?_, ?_⟩
      · conv_lhs => rw [← h0]
        rw [List.cons_append]
      · intro hcontra
        have hcc : rest.dropLast.contains '"' = true :=
          List.elem_iff.mpr hcontra
        have h3 := h.2
        rw [hcc] at h3
        simp at h3
    · exact absurd h (by simp)
  · rw [if_neg hq] at h
    right
    constructor
    · intro hcontra
      exact hq (List.elem_iff.mpr hcontra)
    · intro hcontra
      have hcc : t.contains ' ' = true := List.elem_iff.mpr hcontra
      rw [hcc] at h
      simp at h

/-- Helper: takeWhile on a space-free run keeps everything. -/
theorem takeWhile_nospace {t2 : List Char} (h : ' ' ∉ t2) :
    t2.takeWhile (fun x => x != ' ') = t2 :=
  List.takeWhile_eq_self_iff.mpr fun x hx => by
    have hxs : x ≠ ' ' := fun hc => h (hc ▸ hx)
    simpa using hxs

/-- Helper: dropWhile on a space-free run drops everything. -/
theorem dropWhile_nospace {t2 : List Char} (h : ' ' ∉ t2) :
    t2.dropWhile (fun x => x != ' ') = [] :=
  List.dropWhile_eq_nil_iff.mpr fun x hx => by
    have hxs : x ≠ ' ' := fun hc => h (hc ▸ hx)
    simpa using hxs

/-- Helper: a well-formed token alone scans to itself. -/
theorem scanTokens_wf_single {t : List Char} (hwf : WFtoken t = true) :
    scanTokens t = [t] := by
  obtain ⟨hne, _, _, _, _, hqa⟩ := WFtoken_parts hwf
  rcases quoteAtomic_shape hne hqa with ⟨mid, hEq, hmid⟩ | ⟨hq, hs⟩
  · subst hEq
    have hsp : splitAtQuote (mid ++ ['"']) = some (mid, []) :=
      splitAtQuote_append mid [] hmid
    show scanTokens ('"' :: (mid ++ ['"'])) = ['"' :: mid ++ ['"']]
    rw [scanTokens_quote_some hsp]
    rfl
  · obtain ⟨a, t2, rfl⟩ := List.exists_cons_of_ne_nil hne
    have ha_q : a ≠ '"' := fun hc => hq (hc ▸ List.mem_cons_self a t2)
    have ha_s : a ≠ ' ' := fun hc => hs (hc ▸ List.mem_cons_self a t2)
    have ht2 : ' ' ∉ t2 := fun hm => hs (List.mem_cons_of_mem a hm)
    rw [scanTokens_word t2 ha_q ha_s, takeWhile_nospace ht2,
      dropWhile_nospace ht2]
    rfl

/-- Helper: a well-formed token followed by a space and more input scans
to the token and then the rest. -/
theorem scanTokens_wf_cons {t J : List Char} (hwf : WFtoken t = true) :
    scanTokens (t ++ ' ' :: J) = t :: scanTokens J := by
  obtain ⟨hne, _, _, _, _, hqa⟩ := WFtoken_parts hwf
  rcases quoteAtomic_shape hne hqa with ⟨mid, hEq, hmid⟩ | ⟨hq, hs⟩
  · subst hEq
    have hsp : splitAtQuote (mid ++ '"' :: ' ' :: J) = some (mid, ' ' :: J) :=
      splitAtQuote_append mid (' ' :: J) hmid
    have hassoc : ('"' :: mid ++ ['"']) ++ ' ' :: J =
        '"' :: (mid ++ '"' :: ' ' :: J) := by
      simp
    rw [hassoc, scanTokens_quote_some hsp, scanTokens_space]
  · obtain ⟨a, t2, rfl⟩ := List.exists_cons_of_ne_nil hne
    have ha_q : a ≠ '"' := fun hc => hq (hc ▸ List.mem_cons_self a t2)
    have ha_s : a ≠ ' ' := fun hc => hs (hc ▸ List.mem_cons_self a t2)
    have ht2 : ' ' ∉ t2 := fun hm => hs (List.mem_cons_of_mem a hm)
    show scanTokens (a :: (t2 ++ ' ' :: J)) = (a :: t2) :: scanTokens J
    rw [scanTokens_word _ ha_q ha_s]
    have htake2 : (t2 ++ ' ' :: J).takeWhile (fun x => x != ' ') = t2 := by
      rw [List.takeWhile_append, takeWhile_nospace ht2, if_pos rfl,
        List.takeWhile_cons]
      simp
    have hdrop2 : (t2 ++ ' ' :: J).dropWhile (fun x => x != ' ') = ' ' :: J := by
      rw [List.dropWhile_append, dropWhile_nospace ht2]
      simp [List.dropWhile_cons]
    rw [htake2, hdrop2, scanTokens_space]

/-- Helper: the tokenizer recovers a well-formed token list from its
space-join. -/
theorem scanTokens_joinSp : ∀ (ts : List (List Char)),
    (∀ t ∈ ts, WFtoken t = true) → scanTokens (joinSp ts) = ts := by
  intro ts
  induction ts with
  | nil => intro _; rfl
  | cons t rest ih =>
    intro hwf
    cases rest with
    | nil => exact scanTokens_wf_single (hwf t (List.mem_cons_self t []))
    | cons t2 r =>
      show scanTokens (t ++ ' ' :: joinSp (t2 :: r)) = t :: t2 :: r
      rw [scanTokens_wf_cons (hwf t (List.mem_cons_self t (t2 :: r)))]
      rw [ih fun u hu => hwf u (List.mem_cons_of_mem t hu)]

/-- Helper: the bucket classification loop is the five elif-filters. -/
theorem bucketize_eq_filters (l : List (List Char)) :
    bucketize l = ⟨
      l.filter isQuotedTok,
      l.filter (fun t => !isQuotedTok t && langTokStart.isPrefixOf t),
      l.filter (fun t => !isQuotedTok t && !langTokStart.isPrefixOf t &&
        fileTokStart.isPrefixOf t),
      l.filter (fun t => !isQuotedTok t && !langTokStart.isPrefixOf t &&
        !fileTokStart.isPrefixOf t && pathTokStart.isPrefixOf t),
      l.filter (fun t => !isQuotedTok t && !langTokStart.isPrefixOf t &&
        !fileTokStart.isPrefixOf t && !pathTokStart.isPrefixOf t &&
        t.any (fun c => !isPySpace c))⟩ := by
  induction l with
  | nil => rfl
  | cons p rest ih =>
    simp only [bucketize, ih]
    by_cases h1 : isQuotedTok p
    · simp [List.filter_cons, h1]
    · by_cases h2 : langTokStart.isPrefixOf p
      · simp [List.filter_cons, h1, h2]
      · by_cases h3 : fileTokStart.isPrefixOf p
        · simp [List.filter_cons, h1, h2, h3]
        · by_cases h4 : pathTokStart.isPrefixOf p
          · simp [List.filter_cons, h1, h2, h3, h4]
          · by_cases h5 : p.any (fun c => !isPySpace c)
            · simp [List.filter_cons, h1, h2, h3, h4, h5]
            · simp [List.filter_cons, h1, h2, h3, h4, h5]

/-- Helper: lexLe is total. -/
theorem lexLe_total : ∀ (a b : List Char),
    lexLe a b = true ∨ lexLe b a = true := by
  intro a
  induction a with
  | nil => intro b; left; rfl
  | cons x xs ih =>
    intro b
    cases b with
    | nil => right; rfl
    | cons y ys =>
      by_cases hxy : x = y
      · subst hxy
        simp only [lexLe, if_pos rfl]
        exact ih ys
      · rcases lt_trichotomy x y with hlt | heq | hgt
        · left
          simp [lexLe, hxy, hlt]
        · exact absurd heq hxy
        · right
          have hyx : y ≠ x := fun hc => hxy hc.symm
          simp [lexLe, hyx, hgt]

/-- Helper: lexLe is transitive. -/
theorem lexLe_trans : ∀ (a b c : List Char),
    lexLe a b = true → lexLe b c = true → lexLe a c = true := by
  intro a
  induction a with
  | nil => intro b c _ _; rfl
  | cons x xs ih =>
    intro b c hab hbc
    cases b with
    | nil => simp [lexLe] at hab
    | cons y ys =>
      cases c with
      | nil => simp [lexLe] at hbc
      | cons z zs =>
        by_cases hxy : x = y
        · subst hxy
          by_cases hyz : x = z
          · subst hyz
            simp only [lexLe, if_pos rfl] at hab hbc ⊢
            exact ih ys zs hab hbc
          · simp only [lexLe, if_pos rfl] at hab
            simp only [lexLe, if_neg hyz] at hbc ⊢
            exact hbc
        · by_cases hyz : y = z
          · subst hyz
            simp only [lexLe, if_neg hxy] at hab ⊢
            exact hab
          · simp only [lexLe, if_neg hxy] at hab
            simp only [lexLe, if_neg hyz] at hbc
            have hxz : x < z :=
              lt_trans (of_decide_eq_true hab) (of_decide_eq_true hbc)
            have hxz_ne : x ≠ z := ne_of_lt hxz
            simp only [lexLe, if_neg hxz_ne]
            exact decide_eq_true hxz

/-- Helper: lexLe is antisymmetric. -/
theorem lexLe_antisymm : ∀ (a b : List Char),
    lexLe a b = true → lexLe b a = true → a = b := by
  intro a
  induction a with
  | nil =>
    intro b _ hba
    cases b with
    | nil => rfl
    | cons y ys => simp [lexLe] at hba
  | cons x xs ih =>
    intro b hab hba
    cases b with
    | nil => simp [lexLe] at hab
    | cons y ys =>
      by_cases hxy : x = y
      · subst hxy
        simp only [lexLe, if_pos rfl] at hab hba
        rw [ih ys hab hba]
      · have hyx : y ≠ x := fun hc => hxy hc.symm
        simp only [lexLe, if_neg hxy] at hab
        simp only [lexLe, if_neg hyx] at hba
        exact absurd
          (lt_trans (of_decide_eq_true hab) (of_decide_eq_true hba))
          (lt_irrefl x)

/-- Helper: sorting is invariant under permutation of the input, since
the sorted permutation is unique for a total antisymmetric order. -/
theorem pySorted_congr {l1 l2 : List (List Char)} (h : l1.Perm l2) :
    pySorted l1 = pySorted l2 := by
  haveI hT : IsTotal (List Char) (fun a b => lexLe a b = true) := ⟨lexLe_total⟩
  haveI hR : IsTrans (List Char) (fun a b => lexLe a b = true) := ⟨lexLe_trans⟩
  haveI hA : IsAntisymm (List Char) (fun a b => lexLe a b = true) :=
    ⟨lexLe_antisymm⟩
  exact List.eq_of_perm_of_sorted
    ((List.perm_insertionSort _ l1).trans
      (h.trans (List.perm_insertionSort _ l2).symm))
    (List.sorted_insertionSort _ l1)
    (List.sorted_insertionSort _ l2)

/-- Counterexample to C2 as stated: the two-token list with tokens
quote-a and b-quote (both classified into the claim's buckets) joined in
the two orders normalizes to different strings, because the tokenizer's
quote scan crosses token boundaries. -/
theorem normalize_perm_counterexample :
    (["\"a".toList, "b\"".toList]).Perm ["b\"".toList, "\"a".toList] ∧
    normalize_query (String.mk (joinSp ["\"a".toList, "b\"".toList])) ≠
      normalize_query (String.mk (joinSp ["b\"".toList, "\"a".toList])) := by
  decide

/-- C2 amended: normalize_query is permutation-invariant over the
space-join of any token list whose tokens are well-formed — non-empty,
whitespace restricted to single interior plain spaces, and quote-atomic
(a token containing a double quote starts and ends with one and holds no
other; a quote-free token is space-free).  The stray-quote tokens of the
counterexample are exactly what the restriction excludes. -/
theorem normalize_query_wf_perm_invariant (ts1 ts2 : List (List Char))
    (hwf : ∀ t ∈ ts1, WFtoken t = true) (hperm : ts1.Perm ts2) :
    normalize_query (String.mk (joinSp ts1)) =
      normalize_query (String.mk (joinSp ts2)) := by
  have hwf2 : ∀ t ∈ ts2, WFtoken t = true := fun t ht =>
    hwf t (hperm.mem_iff.mpr ht)
  have hcanon1 := joinSp_canonical ts1 hwf
  have hcanon2 := joinSp_canonical ts2 hwf2
  unfold normalize_query collapseWS
  rw [show (String.mk (joinSp ts1)).toList = joinSp ts1 from rfl,
    show (String.mk (joinSp ts2)).toList = joinSp ts2 from rfl]
  rw [joinSp_pyWords_canonical (joinSp ts1).length (joinSp ts1) le_rfl
    hcanon1.1 hcanon1.2.1 hcanon1.2.2.1 hcanon1.2.2.2]
  rw [joinSp_pyWords_canonical (joinSp ts2).length (joinSp ts2) le_rfl
    hcanon2.1 hcanon2.2.1 hcanon2.2.2.1 hcanon2.2.2.2]
  rw [scanTokens_joinSp ts1 hwf, scanTokens_joinSp ts2 hwf2]
  have hq := pySorted_congr (hperm.filter isQuotedTok)
  have hl := pySorted_congr (hperm.filter
    (fun t => !isQuotedTok t && langTokStart.isPrefixOf t))
  have hf := pySorted_congr (hperm.filter
    (fun t => !isQuotedTok t && !langTokStart.isPrefixOf t &&
      fileTokStart.isPrefixOf t))
  have hp := pySorted_congr (hperm.filter
    (fun t => !isQuotedTok t && !langTokStart.isPrefixOf t &&
      !fileTokStart.isPrefixOf t && pathTokStart.isPrefixOf t))
  have ho := pySorted_congr (hperm.filter
    (fun t => !isQuotedTok t && !langTokStart.isPrefixOf t &&
      !fileTokStart.isPrefixOf t && !pathTokStart.isPrefixOf t &&
      t.any (fun c => !isPySpace c)))
  simp only [normalizeTokens, bucketize_eq_filters]
  rw [hq, hl, hf, hp, ho]

/-- Witness for amended C2: three well-formed tokens of three different
buckets normalize identically after a permutation. -/
theorem normalize_query_wf_perm_invariant_witness :
    normalize_query (String.mk (joinSp
      ["\"x y\"".toList, "language:py".toList, "AIza".toList])) =
    normalize_query (String.mk (joinSp
      ["AIza".toList, "\"x y\"".toList, "language:py".toList])) :=
  normalize_query_wf_perm_invariant
    ["\"x y\"".toList, "language:py".toList, "AIza".toList]
    ["AIza".toList, "\"x y\"".toList, "language:py".toList]
    (by decide) (by decide)
